import Mathlib

/-!
Verification of the VAE / CNN teaching notebooks (`gbaydin/ml-aims-mt2020`).

Vectors and tensors are shallowly embedded as (nested) lists of reals, so
that shapes are runtime data exactly as in the Python source.  The layers
`nn.Linear`, `F.relu`, `torch.sigmoid`, `nn.Conv2d`, `F.max_pool2d` and
`F.dropout` are translated from the notebook code.  Where a method body in
the notebook is only a `TODO` placeholder left for students, the definition
here is modelled from the specification and its doc comment says so.
-/

noncomputable section

namespace MLAims

/-- `F.relu`, elementwise rectifier. -/
def relu (x : ℝ) : ℝ := max x 0

/-- `torch.sigmoid`, logistic sigmoid. -/
def sigmoid (x : ℝ) : ℝ := 1 / (1 + Real.exp (-x))

/-- A fully connected layer `nn.Linear`: weight matrix (list of rows) and bias. -/
structure Linear where
  weight : List (List ℝ)
  bias : List ℝ

/-- A `Linear` has the shapes announced by `nn.Linear(inF, outF)`. -/
def Linear.wellFormed (l : Linear) (inF outF : ℕ) : Prop :=
  l.weight.length = outF ∧ l.bias.length = outF ∧ ∀ row ∈ l.weight, row.length = inF

/-- Dot product of two vectors (truncating to the shorter, as `zipWith` does). -/
def dot (a b : List ℝ) : ℝ := (List.zipWith (fun u v => u * v) a b).sum

/-- Application of a linear layer: `W·x + b`, row by row. -/
def Linear.apply (l : Linear) (x : List ℝ) : List ℝ :=
  List.zipWith (fun row b => dot row x + b) l.weight l.bias

/-- Parameter tensors of the `VAE` module: `fc1`, `fc21`, `fc22`, `fc3`, `fc4`. -/
structure VAEParams where
  fc1 : Linear
  fc21 : Linear
  fc22 : Linear
  fc3 : Linear
  fc4 : Linear

/-- The layer sizes fixed in `VAE.__init__`:
`fc1 : 784→400`, `fc21 : 400→20`, `fc22 : 400→20`, `fc3 : 20→400`, `fc4 : 400→784`. -/
def VAEParams.wellFormed (p : VAEParams) : Prop :=
  p.fc1.wellFormed 784 400 ∧ p.fc21.wellFormed 400 20 ∧ p.fc22.wellFormed 400 20 ∧
  p.fc3.wellFormed 20 400 ∧ p.fc4.wellFormed 400 784

/-- `VAE.encode`: `h1 = relu(fc1(x))`, returns `(fc21(h1), fc22(h1))`,
the mean and log-variance of the approximate posterior. -/
def VAE.encode (p : VAEParams) (x : List ℝ) : List ℝ × List ℝ :=
  let h1 := (p.fc1.apply x).map relu
  (p.fc21.apply h1, p.fc22.apply h1)

/-- `VAE.decode`: `h3 = relu(fc3(z))`, returns `sigmoid(fc4(h3))`,
the mean of the likelihood. -/
def VAE.decode (p : VAEParams) (z : List ℝ) : List ℝ :=
  let h3 := (p.fc3.apply z).map relu
  (p.fc4.apply h3).map sigmoid

/-- Modelled from the spec: the body of `VAE.reparameterize` in the notebook is a
`TODO` placeholder.  The spec says the latent sample is
mean + exp(½·log-variance) ⊙ standard-normal noise, elementwise; the noise is
passed explicitly here. -/
def VAE.reparameterize (mu logvar eps : List ℝ) : List ℝ :=
  let std := logvar.map (fun l => Real.exp (0.5 * l))
  List.zipWith (fun m se => m + se) mu (List.zipWith (fun s e => s * e) std eps)

/-- Modelled from the spec: the body of `loss_function` in the notebook is a
`TODO` placeholder.  Closed-form KL divergence between the approximate
posterior `N(mu, diag(exp logvar))` and the standard-normal prior:
`-½·Σ_j (1 + logvar_j − exp(logvar_j) − mu_j²)`. -/
def klTerm (mu logvar : List ℝ) : ℝ :=
  -(1 / 2) * (List.zipWith (fun m l => 1 + l - Real.exp l - m ^ 2) mu logvar).sum

/-- Modelled from the spec: negative log-likelihood of a Gaussian likelihood
with mean `recon` and variance `sigma²` at `x` (up to the additive constant),
approximated with the single posterior sample behind `recon`:
`‖x − recon‖² / (2·sigma²)`. -/
def reconTerm (sigma : ℝ) (recon x : List ℝ) : ℝ :=
  (List.zipWith (fun r xi => (xi - r) ^ 2) recon x).sum / (2 * sigma ^ 2)

/-- Modelled from the spec: the body of `loss_function` in the notebook is a
`TODO` placeholder.  The negative ELBO: per batch element, the single-sample
negative expected log-likelihood plus the closed-form KL term, averaged over
the batch. -/
def loss_function (sigma : ℝ) (recon x mu logvar : List (List ℝ)) : ℝ :=
  let perPoint := List.zipWith (fun rx ml => reconTerm sigma rx.1 rx.2 + klTerm ml.1 ml.2)
    (recon.zip x) (mu.zip logvar)
  perPoint.sum / recon.length

/-- Modelled from the spec: the body of `VAE.forward` in the notebook is a
`TODO` placeholder.  The spec says forward encodes `x` to the posterior mean
and log-variance, draws a latent sample by the reparameterization trick, and
returns (likelihood mean from `decode`, posterior mean, posterior
log-variance). -/
def VAE.forward (p : VAEParams) (eps x : List ℝ) : List ℝ × List ℝ × List ℝ :=
  let ml := VAE.encode p x
  let z := VAE.reparameterize ml.1 ml.2 eps
  (VAE.decode p z, ml.1, ml.2)

/-- A Python runtime value, as far as the stubbed notebook methods need one. -/
inductive PyVal where
  | tensor (v : List ℝ)
  | pyNone

/-- The local scope of the literal `VAE.forward` body when its `return`
statement runs: the comment-only lines bind nothing, so only the parameter
`x` is bound (`self` is elided). -/
def forwardScope (x : List ℝ) : List (String × PyVal) :=
  [("x", PyVal.tensor x)]

/-- Python local-name lookup; an unbound name gives `none` (a `NameError`). -/
def lookupName (scope : List (String × PyVal)) (n : String) : Option PyVal :=
  (scope.find? (fun b => b.1 == n)).map (fun b => b.2)

/-- The literal `VAE.forward` of the notebook: the body is TODO comments
followed by `return recon, mu, logvar`, and none of `recon`, `mu`, `logvar`
is ever bound, so the lookups fail and no triple can be produced. -/
def VAE.forwardStub (x : List ℝ) : Option (PyVal × PyVal × PyVal) :=
  match lookupName (forwardScope x) "recon", lookupName (forwardScope x) "mu",
      lookupName (forwardScope x) "logvar" with
  | some r, some m, some l => some (r, m, l)
  | _, _, _ => none

/-- Modelled from the spec: the body of the evaluation loop in `test` is a
`TODO` placeholder.  One evaluation batch: run the model forward on each
point (under `torch.no_grad`, so parameters are only read, never written)
and accumulate the batch loss. -/
def testStep (sigma : ℝ) (eps : List ℝ) (acc : VAEParams × ℝ) (batch : List (List ℝ)) :
    VAEParams × ℝ :=
  let outs := batch.map (fun x => VAE.forward acc.1 eps x)
  let loss := loss_function sigma (outs.map (fun o => o.1)) batch
    (outs.map (fun o => o.2.1)) (outs.map (fun o => o.2.2))
  (acc.1, acc.2 + loss)

/-- Modelled from the spec: the body of `test` is a `TODO` placeholder.  The
spec says: in evaluation mode, disable gradient tracking and parameter
updates, and report the average loss over the test dataset. -/
def test (sigma : ℝ) (eps : List ℝ) (p : VAEParams) (testData : List (List (List ℝ))) :
    VAEParams × ℝ :=
  let final := testData.foldl (testStep sigma eps) (p, 0)
  (final.1, final.2 / testData.length)

/-- `nn.Conv2d` parameters: weight (outC × inC × k × k) and bias (outC). -/
structure Conv2d where
  weight : List (List (List (List ℝ)))
  bias : List ℝ

/-- A `Conv2d` has the shapes announced by `nn.Conv2d(inC, outC, kernel_size=k)`. -/
def Conv2d.wellFormed (c : Conv2d) (inC outC k : ℕ) : Prop :=
  c.weight.length = outC ∧ c.bias.length = outC ∧
  ∀ f ∈ c.weight, f.length = inC ∧ ∀ pl ∈ f, pl.length = k ∧ ∀ row ∈ pl, row.length = k

/-- The k×k patch of a plane whose top-left corner is (i, j). -/
def patch (plane : List (List ℝ)) (i j k : ℕ) : List (List ℝ) :=
  ((plane.drop i).take k).map (fun row => (row.drop j).take k)

/-- Frobenius inner product of two matrices. -/
def dot2 (a b : List (List ℝ)) : ℝ := (List.zipWith dot a b).sum

/-- One output value of the 2-D cross-correlation: filter `f` (inC × k × k)
against input `inp` (inC × H × W) at spatial position (i, j). -/
def convAt (f inp : List (List (List ℝ))) (k i j : ℕ) : ℝ :=
  (List.zipWith (fun w c => dot2 w (patch c i j k)) f inp).sum

/-- `nn.Conv2d` applied to one sample (inC × H × W): stride 1, no padding,
so the output spatial size is (H − k + 1) × (W − k + 1). -/
def Conv2d.apply (cv : Conv2d) (k : ℕ) (inp : List (List (List ℝ))) :
    List (List (List ℝ)) :=
  let hIn := (inp.getD 0 []).length
  let wIn := ((inp.getD 0 []).getD 0 []).length
  List.zipWith (fun f b =>
      (List.range (hIn - k + 1)).map (fun i =>
        (List.range (wIn - k + 1)).map (fun j => convAt f inp k i j + b)))
    cv.weight cv.bias

/-- `F.max_pool2d(·, 2)` on one plane: 2×2 windows, stride 2. -/
def pool2 (plane : List (List ℝ)) : List (List ℝ) :=
  let hIn := plane.length
  let wIn := (plane.getD 0 []).length
  (List.range (hIn / 2)).map (fun i =>
    (List.range (wIn / 2)).map (fun j =>
      max (max ((plane.getD (2 * i) []).getD (2 * j) 0)
               ((plane.getD (2 * i) []).getD (2 * j + 1) 0))
          (max ((plane.getD (2 * i + 1) []).getD (2 * j) 0)
               ((plane.getD (2 * i + 1) []).getD (2 * j + 1) 0))))

/-- `F.max_pool2d(·, 2)` on a stack of channel planes. -/
def maxPool2d (inp : List (List (List ℝ))) : List (List (List ℝ)) :=
  inp.map pool2

/-- Elementwise `F.relu` on a plane. -/
def relu2 (plane : List (List ℝ)) : List (List ℝ) := plane.map (fun row => row.map relu)

/-- Elementwise `F.relu` on a stack of channel planes. -/
def relu3 (t : List (List (List ℝ))) : List (List (List ℝ)) := t.map relu2

/-- `x.view(-1, 320)` restricted to one sample: flatten (C × H × W) to C·H·W. -/
def flatten3 (t : List (List (List ℝ))) : List ℝ := (t.map List.flatten).flatten

/-- `F.dropout(x, training=...)` with the random multiplicative mask made
explicit (in evaluation the mask is constantly 1; in training it is 0 or
1/(1−p) at random); the shape is preserved either way. -/
def dropout (mask : ℕ → ℝ) (x : List ℝ) : List ℝ :=
  (List.range x.length).map (fun i => mask i * x.getD i 0)

/-- Parameter tensors of the `Net` module: `conv1`, `conv2`, `fc1`, `fc2`. -/
structure NetParams where
  conv1 : Conv2d
  conv2 : Conv2d
  fc1 : Linear
  fc2 : Linear

/-- The layer sizes fixed in `Net.__init__`: `conv1 : Conv2d(1, 10, 5)`,
`conv2 : Conv2d(10, 20, 5)`, `fc1 : 320→50`, `fc2 : 50→10`. -/
def NetParams.wellFormed (p : NetParams) : Prop :=
  p.conv1.wellFormed 1 10 5 ∧ p.conv2.wellFormed 10 20 5 ∧
  p.fc1.wellFormed 320 50 ∧ p.fc2.wellFormed 50 10

/-- The convolutional stages of `Net.forward` on one sample, line by line:
`relu(max_pool2d(conv1(x), 2))`, `relu(max_pool2d(conv2(x), 2))`, then
`x.view(-1, 320)` restricted to the sample. -/
def Net.features (p : NetParams) (x : List (List (List ℝ))) : List ℝ :=
  let a1 := relu3 (maxPool2d (p.conv1.apply 5 x))
  let a2 := relu3 (maxPool2d (p.conv2.apply 5 a1))
  flatten3 a2

/-- `Net.forward` on one sample (1 × 28 × 28): the two conv+pool stages and
the flatten of `Net.features`, then `relu(fc1(x))`, `dropout(x)`, `fc2(x)`.
The final operation is the affine layer `fc2`; no softmax is applied. -/
def Net.forwardSample (p : NetParams) (mask : ℕ → ℝ) (x : List (List (List ℝ))) :
    List ℝ :=
  let h := (p.fc1.apply (Net.features p x)).map relu
  p.fc2.apply (dropout mask h)

/-- `Net.forward` on a batch (N × 1 × 28 × 28): the batch dimension is mapped
over (the batched `view(-1, 320)` coincides with the per-sample flatten). -/
def Net.forward (p : NetParams) (mask : ℕ → ℝ) (xs : List (List (List (List ℝ)))) :
    List (List ℝ) :=
  xs.map (Net.forwardSample p mask)

/-- Shape of a rank-3 tensor: c channel planes, each h rows of length w. -/
def wf3 (t : List (List (List ℝ))) (c h w : ℕ) : Prop :=
  t.length = c ∧ ∀ pl ∈ t, pl.length = h ∧ ∀ row ∈ pl, row.length = w

/-- An all-zero `nn.Linear(inF, outF)`, used as a concrete test parameter. -/
def zeroLinear (inF outF : ℕ) : Linear :=
  ⟨List.replicate outF (List.replicate inF 0), List.replicate outF 0⟩

/-- A concrete all-zero `VAE` parameter setting with the source's layer sizes. -/
def vae0 : VAEParams :=
  ⟨zeroLinear 784 400, zeroLinear 400 20, zeroLinear 400 20,
   zeroLinear 20 400, zeroLinear 400 784⟩

/-- An all-zero `nn.Conv2d(inC, outC, 5)`, used as a concrete test parameter. -/
def zeroConv (inC outC : ℕ) : Conv2d :=
  ⟨List.replicate outC (List.replicate inC (List.replicate 5 (List.replicate 5 0))),
   List.replicate outC 0⟩

/-- A concrete all-zero `Net` parameter setting with the source's layer sizes. -/
def net0 : NetParams :=
  ⟨zeroConv 1 10, zeroConv 10 20, zeroLinear 320 50, zeroLinear 50 10⟩

/-- A concrete all-zero MNIST-shaped input sample (1 × 28 × 28). -/
def img0 : List (List (List ℝ)) :=
  List.replicate 1 (List.replicate 28 (List.replicate 28 0))

end MLAims

namespace MLAims

theorem length_linear_apply (l : Linear) (x : List ℝ) :
    (l.apply x).length = min l.weight.length l.bias.length := by
  simp [Linear.apply]

theorem reparameterize_cons (m l e : ℝ) (ms ls es : List ℝ) :
    VAE.reparameterize (m :: ms) (l :: ls) (e :: es) =
      (m + Real.exp (0.5 * l) * e) :: VAE.reparameterize ms ls es := by
  simp [VAE.reparameterize]

theorem reparameterize_len_getD (mu : List ℝ) : ∀ logvar eps : List ℝ,
    logvar.length = mu.length → eps.length = mu.length →
    (VAE.reparameterize mu logvar eps).length = mu.length ∧
      ∀ i, i < mu.length →
        (VAE.reparameterize mu logvar eps).getD i 0 =
          mu.getD i 0 + Real.exp (0.5 * logvar.getD i 0) * eps.getD i 0 := by
  induction mu with
  | nil =>
      intro logvar eps hl he
      refine ⟨?_, ?_⟩
      · simp [VAE.reparameterize]
      · intro i hi; simp at hi
  | cons m ms ih =>
      intro logvar eps hl he
      match logvar, eps with
      | [], _ => simp at hl
      | _ :: _, [] => simp at he
      | l :: ls, e :: es =>
        simp only [List.length_cons, Nat.succ.injEq] at hl he
        obtain ⟨hlen, hget⟩ := ih ls es hl he
        rw [reparameterize_cons]
        refine ⟨by simpa using hlen, ?_⟩
        intro i hi
        match i with
        | 0 => simp
        | Nat.succ j =>
            simp only [List.getD_cons_succ]
            exact hget j (by simpa using hi)

theorem zeroLinear_wf (a b : ℕ) : (zeroLinear a b).wellFormed a b := by
  refine ⟨by rw [zeroLinear, List.length_replicate], by rw [zeroLinear, List.length_replicate], ?_⟩
  intro row hrow
  rw [zeroLinear] at hrow
  rw [List.eq_of_mem_replicate hrow, List.length_replicate]

theorem vae0_wf : vae0.wellFormed :=
  ⟨zeroLinear_wf 784 400, zeroLinear_wf 400 20, zeroLinear_wf 400 20,
   zeroLinear_wf 20 400, zeroLinear_wf 400 784⟩

theorem foldl_testStep_fst (sigma : ℝ) (eps : List ℝ) :
    ∀ (d : List (List (List ℝ))) (acc : VAEParams × ℝ),
      (d.foldl (testStep sigma eps) acc).1 = acc.1 := by
  intro d
  induction d with
  | nil => intro acc; rfl
  | cons b t ih =>
      intro acc
      rw [List.foldl_cons, ih (testStep sigma eps acc b)]
      rfl

theorem klSum_zero : ∀ J : ℕ,
    (List.zipWith (fun m l => 1 + l - Real.exp l - m ^ 2)
      (List.replicate J (0 : ℝ)) (List.replicate J (0 : ℝ))).sum = 0 := by
  intro J
  induction J with
  | zero => simp
  | succ n ih =>
      rw [List.replicate_succ]
      simp [ih, Real.exp_zero]

/-- C1: for posterior mean `mu`, log-variance `logvar` and noise `eps` of the
same dimension, the reparameterized sample has that dimension and is,
elementwise, `mu + exp(0.5 * logvar) * eps`. -/
theorem reparameterize_elementwise (mu logvar eps : List ℝ)
    (hl : logvar.length = mu.length) (he : eps.length = mu.length) :
    (VAE.reparameterize mu logvar eps).length = mu.length ∧
      ∀ i, i < mu.length →
        (VAE.reparameterize mu logvar eps).getD i 0 =
          mu.getD i 0 + Real.exp (0.5 * logvar.getD i 0) * eps.getD i 0 :=
  reparameterize_len_getD mu logvar eps hl he

theorem reparameterize_elementwise_witness :
    (([(0 : ℝ)]).length = ([(1 : ℝ)]).length ∧
        ([(2 : ℝ)]).length = ([(1 : ℝ)]).length) ∧
      ((VAE.reparameterize [1] [0] [2]).length = ([(1 : ℝ)]).length ∧
        ∀ i, i < ([(1 : ℝ)]).length →
          (VAE.reparameterize [1] [0] [2]).getD i 0 =
            ([(1 : ℝ)]).getD i 0 +
              Real.exp (0.5 * ([(0 : ℝ)]).getD i 0) * ([(2 : ℝ)]).getD i 0) :=
  ⟨⟨rfl, rfl⟩, reparameterize_elementwise [1] [0] [2] rfl rfl⟩

/-- C4: when every latent mean is 0 and every log-variance is 0 (the
approximate posterior equals the prior), the closed-form KL term of the loss
is exactly zero. -/
theorem klTerm_self_zero (J : ℕ) :
    klTerm (List.replicate J 0) (List.replicate J 0) = 0 := by
  simp [klTerm, klSum_zero J]

/-- C5: when the standard-normal noise vector is the zero vector, the
reparameterized sample `mu + exp(½·logvar) ⊙ 0` is exactly `mu`. -/
theorem reparameterize_zero_noise : ∀ (mu logvar : List ℝ),
    logvar.length = mu.length →
    VAE.reparameterize mu logvar (List.replicate mu.length 0) = mu := by
  intro mu
  induction mu with
  | nil => intro logvar h; simp [VAE.reparameterize]
  | cons m ms ih =>
      intro logvar h
      match logvar with
      | [] => simp at h
      | l :: ls =>
          simp only [List.length_cons, Nat.succ.injEq] at h
          rw [List.length_cons, List.replicate_succ, reparameterize_cons, mul_zero,
            add_zero, ih ls h]

theorem reparameterize_zero_noise_witness :
    ([(0 : ℝ), 3]).length = ([(1 : ℝ), 2]).length ∧
      VAE.reparameterize [1, 2] [0, 3] (List.replicate ([(1 : ℝ), 2]).length 0) = [1, 2] :=
  ⟨rfl, reparameterize_zero_noise [1, 2] [0, 3] rfl⟩

/-- C6: `VAE.encode` and `VAE.decode` are deterministic given fixed
parameters: two runs on equal parameters and equal inputs return equal
results (the embedded functions are pure, as the source methods are up to
the framework's numeric kernels). -/
theorem encode_decode_deterministic (p q : VAEParams) (x y z w : List ℝ)
    (hpq : p = q) (hxy : x = y) (hzw : z = w) :
    VAE.encode p x = VAE.encode q y ∧ VAE.decode p z = VAE.decode q w := by
  subst hpq hxy hzw
  exact ⟨rfl, rfl⟩

theorem encode_decode_deterministic_witness :
    (vae0 = vae0 ∧ ([(1 : ℝ)]) = ([(1 : ℝ)]) ∧ ([(2 : ℝ)]) = ([(2 : ℝ)])) ∧
      (VAE.encode vae0 [1] = VAE.encode vae0 [1] ∧
        VAE.decode vae0 [2] = VAE.decode vae0 [2]) :=
  ⟨⟨rfl, rfl, rfl⟩, encode_decode_deterministic vae0 vae0 [1] [1] [2] [2] rfl rfl rfl⟩

/-- C7: for every input, the two vectors returned by `VAE.encode` (posterior
mean and log-variance) both have the fixed dimension 20, the output size of
`fc21` and `fc22`, and hence equal dimensions. -/
theorem encode_latent_dims (p : VAEParams) (x : List ℝ) (hp : p.wellFormed) :
    (VAE.encode p x).1.length = 20 ∧ (VAE.encode p x).2.length = 20 ∧
      (VAE.encode p x).1.length = (VAE.encode p x).2.length := by
  obtain ⟨h1, h21, h22, h3, h4⟩ := hp
  have ha : (VAE.encode p x).1.length = 20 := by
    simp [VAE.encode, length_linear_apply, h21.1, h21.2.1]
  have hb : (VAE.encode p x).2.length = 20 := by
    simp [VAE.encode, length_linear_apply, h22.1, h22.2.1]
  exact ⟨ha, hb, ha.trans hb.symm⟩

theorem encode_latent_dims_witness :
    vae0.wellFormed ∧
      ((VAE.encode vae0 (List.replicate 784 0)).1.length = 20 ∧
        (VAE.encode vae0 (List.replicate 784 0)).2.length = 20 ∧
        (VAE.encode vae0 (List.replicate 784 0)).1.length =
          (VAE.encode vae0 (List.replicate 784 0)).2.length) :=
  ⟨vae0_wf, encode_latent_dims vae0 (List.replicate 784 0) vae0_wf⟩

/-- C3: for a 784-dimensional input, the reconstruction returned by
`VAE.forward` (the likelihood mean produced by `decode` on the sampled
latent) has the same dimension as the input, namely 784, fixed by `fc4`. -/
theorem forward_recon_shape (p : VAEParams) (eps x : List ℝ)
    (hp : p.wellFormed) (hx : x.length = 784) :
    ((VAE.forward p eps x).1).length = x.length ∧
      ((VAE.forward p eps x).1).length = 784 := by
  obtain ⟨h1, h21, h22, h3, h4⟩ := hp
  have hb : ((VAE.forward p eps x).1).length = 784 := by
    simp [VAE.forward, VAE.decode, length_linear_apply, h4.1, h4.2.1]
  exact ⟨by rw [hb, hx], hb⟩

theorem forward_recon_shape_witness :
    (vae0.wellFormed ∧ (List.replicate 784 (0 : ℝ)).length = 784) ∧
      (((VAE.forward vae0 (List.replicate 20 0) (List.replicate 784 0)).1).length =
          (List.replicate 784 (0 : ℝ)).length ∧
        ((VAE.forward vae0 (List.replicate 20 0) (List.replicate 784 0)).1).length = 784) :=
  ⟨⟨vae0_wf, by rw [List.length_replicate]⟩,
    forward_recon_shape vae0 (List.replicate 20 0) (List.replicate 784 0) vae0_wf
      (by rw [List.length_replicate])⟩

/-- C8: the evaluation function `test` returns the model parameters exactly
as it received them: evaluation reads the weights and biases to compute the
average loss but never writes them. -/
theorem test_preserves_params (sigma : ℝ) (eps : List ℝ) (p : VAEParams)
    (d : List (List (List ℝ))) :
    (test sigma eps p d).1 = p :=
  foldl_testStep_fst sigma eps d (p, 0)

theorem perPoint_sum (sigma : ℝ) : ∀ (recon x mu logvar : List (List ℝ)),
    x.length = recon.length → mu.length = recon.length → logvar.length = recon.length →
    (List.zipWith (fun rx ml => reconTerm sigma rx.1 rx.2 + klTerm ml.1 ml.2)
        (recon.zip x) (mu.zip logvar)).sum =
      ((List.range recon.length).map (fun b =>
          reconTerm sigma (recon.getD b []) (x.getD b []) +
            klTerm (mu.getD b []) (logvar.getD b []))).sum := by
  intro recon
  induction recon with
  | nil => intro x mu logvar hx hm hl; simp
  | cons r rs ih =>
      intro x mu logvar hx hm hl
      match x, mu, logvar with
      | [], _, _ => simp at hx
      | _ :: _, [], _ => simp at hm
      | _ :: _, _ :: _, [] => simp at hl
      | xh :: xt, mh :: mt, lh :: lt =>
          simp only [List.length_cons, Nat.succ.injEq] at hx hm hl
          rw [List.zip_cons_cons, List.zip_cons_cons, List.zipWith_cons_cons,
            List.sum_cons, ih xt mt lt hx hm hl, List.length_cons,
            List.range_succ_eq_map, List.map_cons, List.sum_cons, List.map_map]
          simp [Function.comp_def, List.getD_cons_zero, List.getD_cons_succ]

/-- C2: `loss_function` returns the single-sample negative expected
log-likelihood plus the closed-form KL term
`-½·Σ_j (1 + logvar_j − exp(logvar_j) − mu_j²)` over the latent dimensions,
summed per batch element and averaged over the batch. -/
theorem loss_function_spec (sigma : ℝ) (N : ℕ) (recon x mu logvar : List (List ℝ))
    (hr : recon.length = N) (hx : x.length = N) (hm : mu.length = N)
    (hl : logvar.length = N) :
    loss_function sigma recon x mu logvar =
      ((List.range N).map (fun b =>
          reconTerm sigma (recon.getD b []) (x.getD b []) +
            klTerm (mu.getD b []) (logvar.getD b []))).sum / N := by
  subst hr
  simp only [loss_function]
  rw [perPoint_sum sigma recon x mu logvar hx hm hl]

theorem loss_function_spec_witness :
    (([[(0 : ℝ)]]).length = 1 ∧ ([[(1 : ℝ)]]).length = 1 ∧
        ([[(0 : ℝ)]]).length = 1 ∧ ([[(0 : ℝ)]]).length = 1) ∧
      loss_function 1 [[0]] [[1]] [[0]] [[0]] =
        ((List.range 1).map (fun b =>
            reconTerm 1 (([[(0 : ℝ)]]).getD b []) (([[(1 : ℝ)]]).getD b []) +
              klTerm (([[(0 : ℝ)]]).getD b []) (([[(0 : ℝ)]]).getD b []))).sum /
          ((1 : ℕ) : ℝ) :=
  ⟨⟨rfl, rfl, rfl, rfl⟩, loss_function_spec 1 1 [[0]] [[1]] [[0]] [[0]] rfl rfl rfl rfl⟩

theorem mem_zipWith {α β γ : Type _} (f : α → β → γ) :
    ∀ (l1 : List α) (l2 : List β) (c : γ), c ∈ List.zipWith f l1 l2 →
      ∃ a b, a ∈ l1 ∧ b ∈ l2 ∧ c = f a b := by
  intro l1
  induction l1 with
  | nil => intro l2 c h; simp at h
  | cons a t ih =>
      intro l2 c h
      match l2 with
      | [] => simp at h
      | b :: t2 =>
          rw [List.zipWith_cons_cons] at h
          rcases List.mem_cons.mp h with h1 | h2
          · exact ⟨a, b, List.mem_cons_self a t, List.mem_cons_self b t2, h1⟩
          · obtain ⟨a2, b2, ha, hb, hc⟩ := ih t2 c h2
            exact ⟨a2, b2, List.mem_cons_of_mem a ha, List.mem_cons_of_mem b hb, hc⟩

theorem wf3_getD_len (t : List (List (List ℝ))) (c h w : ℕ) (ht : wf3 t c h w)
    (hc : 0 < c) (hh : 0 < h) :
    (t.getD 0 []).length = h ∧ ((t.getD 0 []).getD 0 []).length = w := by
  obtain ⟨hlen, hpl⟩ := ht
  cases t with
  | nil => rw [List.length_nil] at hlen; omega
  | cons p rest =>
      obtain ⟨hplen, hrows⟩ := hpl p (List.mem_cons_self p rest)
      refine ⟨hplen, ?_⟩
      cases p with
      | nil => rw [List.length_nil] at hplen; omega
      | cons r rt => exact hrows r (List.mem_cons_self r rt)

theorem conv2d_shape (cv : Conv2d) (k : ℕ) (inp : List (List (List ℝ))) (c h w : ℕ)
    (hin : wf3 inp c h w) (hc : 0 < c) (hh : 0 < h) :
    wf3 (cv.apply k inp) (min cv.weight.length cv.bias.length)
      (h - k + 1) (w - k + 1) := by
  obtain ⟨hH, hW⟩ := wf3_getD_len inp c h w hin hc hh
  refine ⟨?_, ?_⟩
  · simp only [Conv2d.apply]
    rw [List.length_zipWith]
  · intro pl hpl
    simp only [Conv2d.apply] at hpl
    obtain ⟨f0, b0, hf0, hb0, heq⟩ := mem_zipWith _ cv.weight cv.bias pl hpl
    subst heq
    refine ⟨by rw [List.length_map, List.length_range, hH], ?_⟩
    intro row hrow
    rw [List.mem_map] at hrow
    obtain ⟨i, hi, heq2⟩ := hrow
    rw [← heq2, List.length_map, List.length_range, hW]

theorem pool2_shape (plane : List (List ℝ)) (h w : ℕ)
    (hlen : plane.length = h) (hrows : ∀ row ∈ plane, row.length = w) (hh : 0 < h) :
    (pool2 plane).length = h / 2 ∧ ∀ row ∈ pool2 plane, row.length = w / 2 := by
  have hW : (plane.getD 0 []).length = w := by
    cases plane with
    | nil => rw [List.length_nil] at hlen; omega
    | cons r rt => exact hrows r (List.mem_cons_self r rt)
  constructor
  · simp only [pool2]
    rw [List.length_map, List.length_range, hlen]
  · intro row hrow
    simp only [pool2] at hrow
    rw [List.mem_map] at hrow
    obtain ⟨i, hi, heq⟩ := hrow
    rw [← heq, List.length_map, List.length_range, hW]

theorem maxPool2d_shape (t : List (List (List ℝ))) (c h w : ℕ)
    (ht : wf3 t c h w) (hh : 0 < h) :
    wf3 (maxPool2d t) c (h / 2) (w / 2) := by
  obtain ⟨hlen, hpl⟩ := ht
  refine ⟨by simp only [maxPool2d]; rw [List.length_map, hlen], ?_⟩
  intro pl hpl2
  simp only [maxPool2d] at hpl2
  rw [List.mem_map] at hpl2
  obtain ⟨q, hq, heq⟩ := hpl2
  rw [← heq]
  exact pool2_shape q h w (hpl q hq).1 (hpl q hq).2 hh

theorem relu3_shape (t : List (List (List ℝ))) (c h w : ℕ) (ht : wf3 t c h w) :
    wf3 (relu3 t) c h w := by
  obtain ⟨hlen, hpl⟩ := ht
  refine ⟨by simp only [relu3]; rw [List.length_map, hlen], ?_⟩
  intro pl hpl2
  simp only [relu3] at hpl2
  rw [List.mem_map] at hpl2
  obtain ⟨q, hq, heq⟩ := hpl2
  refine ⟨by rw [← heq]; simp only [relu2]; rw [List.length_map, (hpl q hq).1], ?_⟩
  intro row hrow
  rw [← heq] at hrow
  simp only [relu2] at hrow
  rw [List.mem_map] at hrow
  obtain ⟨r, hr, heq2⟩ := hrow
  rw [← heq2, List.length_map, (hpl q hq).2 r hr]

theorem sum_map_const {α : Type _} (f : α → ℕ) (n : ℕ) :
    ∀ l : List α, (∀ a ∈ l, f a = n) → (l.map f).sum = l.length * n := by
  intro l
  induction l with
  | nil => intro h; simp
  | cons a t ih =>
      intro h
      rw [List.map_cons, List.sum_cons, ih (fun y hy => h y (List.mem_cons_of_mem a hy)),
        h a (List.mem_cons_self a t), List.length_cons]
      ring

theorem flatten3_length (t : List (List (List ℝ))) (c h w : ℕ) (ht : wf3 t c h w) :
    (flatten3 t).length = c * (h * w) := by
  obtain ⟨hlen, hpl⟩ := ht
  simp only [flatten3]
  rw [List.length_flatten, List.map_map]
  have hall : ∀ pl ∈ t, (List.length ∘ List.flatten) pl = h * w := by
    intro pl hq
    simp only [Function.comp_apply]
    rw [List.length_flatten, sum_map_const List.length w pl (hpl pl hq).2, (hpl pl hq).1]
  rw [sum_map_const (List.length ∘ List.flatten) (h * w) t hall, hlen]

theorem features_length (p : NetParams) (x : List (List (List ℝ)))
    (hp : p.wellFormed) (hx : wf3 x 1 28 28) :
    (Net.features p x).length = 320 := by
  obtain ⟨hc1, hc2, hf1, hf2⟩ := hp
  have s1 : wf3 (p.conv1.apply 5 x) 10 24 24 := by
    have h0 := conv2d_shape p.conv1 5 x 1 28 28 hx (by norm_num) (by norm_num)
    rw [hc1.1, hc1.2.1] at h0
    simpa using h0
  have s2 : wf3 (maxPool2d (p.conv1.apply 5 x)) 10 12 12 := by
    simpa using maxPool2d_shape _ 10 24 24 s1 (by norm_num)
  have s3 : wf3 (relu3 (maxPool2d (p.conv1.apply 5 x))) 10 12 12 :=
    relu3_shape _ 10 12 12 s2
  have s4 : wf3 (p.conv2.apply 5 (relu3 (maxPool2d (p.conv1.apply 5 x)))) 20 8 8 := by
    have h0 := conv2d_shape p.conv2 5 _ 10 12 12 s3 (by norm_num) (by norm_num)
    rw [hc2.1, hc2.2.1] at h0
    simpa using h0
  have s5 : wf3 (maxPool2d (p.conv2.apply 5 (relu3 (maxPool2d (p.conv1.apply 5 x)))))
      20 4 4 := by
    simpa using maxPool2d_shape _ 20 8 8 s4 (by norm_num)
  have s6 : wf3 (relu3 (maxPool2d (p.conv2.apply 5 (relu3 (maxPool2d
      (p.conv1.apply 5 x)))))) 20 4 4 :=
    relu3_shape _ 20 4 4 s5
  simp only [Net.features]
  rw [flatten3_length _ 20 4 4 s6]

theorem forwardSample_len (p : NetParams) (mask : ℕ → ℝ) (x : List (List (List ℝ)))
    (hp : p.wellFormed) :
    (Net.forwardSample p mask x).length = 10 := by
  obtain ⟨hc1, hc2, hf1, hf2⟩ := hp
  simp only [Net.forwardSample]
  rw [length_linear_apply, hf2.1, hf2.2.1]
  exact Nat.min_self 10

theorem zeroConv_wf (a b : ℕ) : (zeroConv a b).wellFormed a b 5 := by
  refine ⟨?_, ?_, ?_⟩
  · simp only [zeroConv]
    rw [List.length_replicate]
  · simp only [zeroConv]
    rw [List.length_replicate]
  · intro f hf
    simp only [zeroConv] at hf
    rw [List.eq_of_mem_replicate hf]
    refine ⟨by rw [List.length_replicate], ?_⟩
    intro pl hpl
    rw [List.eq_of_mem_replicate hpl]
    refine ⟨by rw [List.length_replicate], ?_⟩
    intro row hrow
    rw [List.eq_of_mem_replicate hrow, List.length_replicate]

theorem net0_wf : net0.wellFormed :=
  ⟨zeroConv_wf 1 10, zeroConv_wf 10 20, zeroLinear_wf 320 50, zeroLinear_wf 50 10⟩

theorem img0_wf : wf3 img0 1 28 28 := by
  refine ⟨by simp only [img0]; rw [List.length_replicate], ?_⟩
  intro pl hpl
  simp only [img0] at hpl
  rw [List.eq_of_mem_replicate hpl]
  refine ⟨by rw [List.length_replicate], ?_⟩
  intro row hrow
  rw [List.eq_of_mem_replicate hrow, List.length_replicate]

/-- C9: for a batch of (1 × 28 × 28) images, `Net.forward` returns one row of
raw class logits per sample, of length 10 (the output size of `fc2`, with no
softmax applied afterwards), and the flattened conv-pool feature vector fed
to `fc1` has exactly the length 320 that `view(-1, 320)` and `fc1` expect. -/
theorem net_forward_logits (p : NetParams) (mask : ℕ → ℝ)
    (xs : List (List (List (List ℝ)))) (hp : p.wellFormed)
    (hxs : ∀ x ∈ xs, wf3 x 1 28 28) :
    (Net.forward p mask xs).length = xs.length ∧
      (∀ out ∈ Net.forward p mask xs, out.length = 10) ∧
      ∀ x ∈ xs, (Net.features p x).length = 320 := by
  refine ⟨by simp only [Net.forward]; rw [List.length_map], ?_, ?_⟩
  · intro out hout
    simp only [Net.forward] at hout
    rw [List.mem_map] at hout
    obtain ⟨x, hx, heq⟩ := hout
    rw [← heq]
    exact forwardSample_len p mask x hp
  · intro x hx
    exact features_length p x hp (hxs x hx)

theorem net_forward_logits_witness :
    (net0.wellFormed ∧ ∀ x ∈ [img0], wf3 x 1 28 28) ∧
      ((Net.forward net0 (fun _ => 1) [img0]).length = ([img0]).length ∧
        (∀ out ∈ Net.forward net0 (fun _ => 1) [img0], out.length = 10) ∧
        ∀ x ∈ [img0], (Net.features net0 x).length = 320) :=
  ⟨⟨net0_wf, fun x hx => by rw [List.mem_singleton] at hx; rw [hx]; exact img0_wf⟩,
    net_forward_logits net0 (fun _ => 1) [img0] net0_wf
      (fun x hx => by rw [List.mem_singleton] at hx; rw [hx]; exact img0_wf)⟩

/-- C10: the literal `VAE.forward` of the notebook never produces the
`(reconstruction, mu, logvar)` triple: its body is only TODO comments before
`return recon, mu, logvar`, and the names `recon`, `mu`, `logvar` are unbound
in the method's local scope, so the call fails (a `NameError`). -/
theorem forward_stub_no_return (x : List ℝ) : VAE.forwardStub x = none := rfl

end MLAims

end
